import Mathlib

/-!
Verification of the pypop7 optimizer variants found in
`src/pypop7/optimizers`: the limited-memory matrix adaptation evolution
strategy (`es/lmmaes.py`), the exponential natural evolution strategy
(`nes/xnes.py`) and the simple adaptive random search (`rs/srs.py`).

The development shallowly embeds the parts of the code the claims are
about: the evaluation-budget termination control flow of the sampling
and generation loops, the SRS step-size recurrence and single-point
iterate, the LMMAES coefficient clamping and distribution update, and
the XNES utility weights and matrix-exponential transform update.
Machine floats are modelled as exact reals; RNG draws are passed as
explicit parameters.
-/

namespace PyPop

/-! ### Evaluation-budget termination model (LMMAES / XNES / SRS loops) -/

/-- Modelled from the spec: `Optimizer._check_terminations` (base class, not
under `src/`) reports termination when the evaluation count has reached
`max_function_evaluations`, or when another condition (runtime budget,
fitness threshold) fires; the non-budget conditions are abstracted as an
arbitrary predicate `p` on the evaluation count. -/
def checkTerminations (maxFE : ℕ) (p : ℕ → Bool) (evals : ℕ) : Bool :=
  decide (maxFE ≤ evals) || p evals

/-- Embeds the evaluation-count behaviour of `LMMAES.iterate`
(`src/pypop7/optimizers/es/lmmaes.py` lines 50-57) and of `XNES.iterate`
(`src/pypop7/optimizers/nes/xnes.py` lines 44-48): for each of the `n`
candidates of a generation, a termination check precedes the fitness
evaluation, and on a positive check the loop returns immediately, leaving
the remaining candidates unevaluated.  The first argument of the recursion
is the number of candidates still to sample; the result is the evaluation
count when `iterate` returns. -/
def iterateEvals (maxFE : ℕ) (p : ℕ → Bool) : ℕ → ℕ → ℕ
  | 0, evals => evals
  | k + 1, evals =>
      if checkTerminations maxFE p evals then evals
      else iterateEvals maxFE p k (evals + 1)

/-- Embeds one generation of the loop in `LMMAES.optimize`
(`es/lmmaes.py` lines 90-99) and `XNES.optimize` (`nes/xnes.py` lines
79-86) at the evaluation-count level: run the sampling loop `iterate`,
then check termination; on termination the loop breaks before
`_update_distribution`, otherwise the update runs.  Returns the
evaluation count after `iterate` and whether `_update_distribution` was
called on this generation's population. -/
def generationStep (maxFE n : ℕ) (p : ℕ → Bool) (evals : ℕ) : ℕ × Bool :=
  let evals' := iterateEvals maxFE p n evals
  (evals', ! checkTerminations maxFE p evals')

/-- Embeds the full generation loop of `LMMAES.optimize` / `XNES.optimize`
at the evaluation-count level.  The loop in the code is unbounded
(`while True` with `break` on termination); `gens` bounds the number of
generations considered, so every finite prefix of a run is captured by a
choice of `gens`. -/
def optimizeEvals (maxFE n : ℕ) (p : ℕ → Bool) : ℕ → ℕ → ℕ
  | 0, evals => evals
  | g + 1, evals =>
      let evals' := iterateEvals maxFE p n evals
      if checkTerminations maxFE p evals' then evals'
      else optimizeEvals maxFE n p g evals'

/-- Embeds the evaluation-count behaviour of `SRS.optimize`
(`src/pypop7/optimizers/rs/srs.py` lines 136-150): each loop iteration's
`iterate` evaluates exactly once unconditionally (line 128), and the
termination check runs only after that evaluation (line 146). -/
def srsLoopEvals (maxFE : ℕ) (p : ℕ → Bool) : ℕ → ℕ → ℕ
  | 0, evals => evals
  | g + 1, evals =>
      if checkTerminations maxFE p (evals + 1) then evals + 1
      else srsLoopEvals maxFE p g (evals + 1)

/-- Embeds `SRS.optimize` end to end at the evaluation-count level:
`SRS.initialize` (lines 118-124) evaluates once unconditionally before
the loop starts, so the loop begins with one evaluation consumed. -/
def srsOptimizeEvals (maxFE : ℕ) (p : ℕ → Bool) (gens : ℕ) : ℕ :=
  srsLoopEvals maxFE p gens 1

lemma iterateEvals_le (maxFE : ℕ) (p : ℕ → Bool) :
    ∀ n evals, evals ≤ maxFE → iterateEvals maxFE p n evals ≤ maxFE := by
  intro n
  induction n with
  | zero => intro evals h; simpa [iterateEvals] using h
  | succ k ih =>
      intro evals h
      by_cases hc : checkTerminations maxFE p evals
      · simpa [iterateEvals, hc] using h
      · have hlt : evals < maxFE := by
          by_contra hge
          exact hc (by simp [checkTerminations, Nat.le_of_not_lt hge])
        simpa [iterateEvals, hc] using ih (evals + 1) hlt

lemma optimizeEvals_le (maxFE n : ℕ) (p : ℕ → Bool) :
    ∀ gens evals, evals ≤ maxFE → optimizeEvals maxFE n p gens evals ≤ maxFE := by
  intro gens
  induction gens with
  | zero => intro evals h; simpa [optimizeEvals] using h
  | succ g ih =>
      intro evals h
      have h' : iterateEvals maxFE p n evals ≤ maxFE := iterateEvals_le maxFE p n evals h
      by_cases hc : checkTerminations maxFE p (iterateEvals maxFE p n evals)
      · simpa [optimizeEvals, hc] using h'
      · simpa [optimizeEvals, hc] using ih _ h'

lemma srsLoopEvals_le (maxFE : ℕ) (p : ℕ → Bool) :
    ∀ gens evals, srsLoopEvals maxFE p gens evals ≤ max (evals + 1) maxFE := by
  intro gens
  induction gens with
  | zero => intro evals; simp only [srsLoopEvals]; omega
  | succ g ih =>
      intro evals
      by_cases hc : checkTerminations maxFE p (evals + 1)
      · simp only [srsLoopEvals, if_pos hc]; omega
      · have hlt : evals + 1 < maxFE := by
          by_contra hge
          exact hc (by simp [checkTerminations, Nat.le_of_not_lt hge])
        have := ih (evals + 1)
        simp only [srsLoopEvals, if_neg hc]
        omega

/-- Key stopping lemma for the guarded sampling loop: if the per-candidate
termination check fires before some candidate `j < n`, then `iterate`
stops early (fewer than `n` evaluations are added) and the check holds at
the evaluation count it returns with. -/
lemma iterateEvals_early_stop (maxFE : ℕ) (p : ℕ → Bool) :
    ∀ n evals, (∃ j, j < n ∧ checkTerminations maxFE p (evals + j) = true) →
      checkTerminations maxFE p (iterateEvals maxFE p n evals) = true ∧
        iterateEvals maxFE p n evals < evals + n := by
  intro n
  induction n with
  | zero =>
      intro evals h
      rcases h with ⟨j, hj, _⟩
      exact absurd hj (Nat.not_lt_zero j)
  | succ k ih =>
      intro evals h
      by_cases hc : checkTerminations maxFE p evals
      · refine ⟨?_, ?_⟩
        · simp only [iterateEvals, if_pos hc]; exact hc
        · simp only [iterateEvals, if_pos hc]; omega
      · rcases h with ⟨j, hj, hfire⟩
        rcases Nat.eq_zero_or_pos j with rfl | hpos
        · exact absurd (by simpa using hfire) hc
        · obtain ⟨j', rfl⟩ : ∃ j', j = j' + 1 := ⟨j - 1, by omega⟩
          have hrec := ih (evals + 1)
            ⟨j', by omega, by simpa [Nat.add_assoc, Nat.add_comm 1 j'] using hfire⟩
          refine ⟨?_, ?_⟩
          · simp only [iterateEvals, if_neg hc]; exact hrec.1
          · have := hrec.2
            simp only [iterateEvals, if_neg hc]
            omega

/-- Claim C1: whenever a termination condition fires during population
sampling (the per-candidate check of `LMMAES.iterate` / `XNES.iterate`
returns true before candidate `j` of `n` is evaluated), `iterate` returns
immediately — strictly fewer than `n` candidates of that generation are
evaluated — the termination check still holds at the point of return, and
the `optimize` loop's own check then breaks out of the loop before
`_update_distribution`, which is therefore never called on that
generation's partially filled population. -/
theorem claim_C1_early_termination_skips_update (maxFE n : ℕ) (p : ℕ → Bool) (evals : ℕ)
    (h : ∃ j, j < n ∧ checkTerminations maxFE p (evals + j) = true) :
    iterateEvals maxFE p n evals - evals < n ∧
      checkTerminations maxFE p (iterateEvals maxFE p n evals) = true ∧
        (generationStep maxFE n p evals).2 = false := by
  obtain ⟨hchk, hlt⟩ := iterateEvals_early_stop maxFE p n evals h
  refine ⟨by omega, hchk, ?_⟩
  simp [generationStep, hchk]

/-- Witness for claim C1 at a concrete input: with a budget of 0
evaluations, population size 1 and no auxiliary termination condition,
the check fires before the first candidate, so the generation evaluates
no candidate and performs no distribution update. -/
theorem claim_C1_witness :
    (∃ j, j < 1 ∧ checkTerminations 0 (fun _ => false) (0 + j) = true) ∧
      (iterateEvals 0 (fun _ => false) 1 0 - 0 < 1 ∧
        checkTerminations 0 (fun _ => false) (iterateEvals 0 (fun _ => false) 1 0) = true ∧
          (generationStep 0 1 (fun _ => false) 0).2 = false) :=
  ⟨⟨0, by decide, by decide⟩,
    claim_C1_early_termination_skips_update 0 1 (fun _ => false) 0 ⟨0, by decide, by decide⟩⟩

/-- Counterexample for claim C7 as stated: in `SRS.optimize` with
`max_function_evaluations = 1` (and `n_individuals = 1` for this
single-point method), `initialize` evaluates once unconditionally and
`iterate` evaluates once more before the first termination check, so the
final evaluation count is 2, exceeding the budget by 1 > n_individuals − 1
= 0. -/
theorem claim_C7_counterexample :
    srsOptimizeEvals 1 (fun _ => false) 1 = 2 ∧
      ¬ srsOptimizeEvals 1 (fun _ => false) 1 ≤ 1 + (1 - 1) := by
  constructor <;> decide

/-- Claim C7 (amended): for every run of every variant, the final
evaluation count exceeds `max_function_evaluations` by at most
`n_individuals + 1`.  For the population-based LMMAES and XNES loops the
per-candidate check precedes every evaluation, so the count never exceeds
the budget at all; for SRS the unguarded evaluations in `initialize` and
`iterate` allow an overshoot of at most 2 = n_individuals + 1. -/
theorem claim_C7_overshoot_bound (maxFE n : ℕ) (p : ℕ → Bool) (gens : ℕ) :
    optimizeEvals maxFE n p gens 0 ≤ maxFE + (n + 1) ∧
      srsOptimizeEvals maxFE p gens ≤ maxFE + (1 + 1) := by
  constructor
  · exact le_trans (optimizeEvals_le maxFE n p gens 0 (Nat.zero_le _)) (by omega)
  · have := srsLoopEvals_le maxFE p gens 1
    simp only [srsOptimizeEvals]
    omega

/-! ### SRS: step-size recurrence and single-point iterate -/

/-- Embeds the step-size update executed after every generation's `iterate`
in `SRS.optimize` (`rs/srs.py` line 143):
`sigma = np.maximum(gamma * sigma, min_sigma)`. -/
def srsSigmaNext (gamma minSigma sigma : ℝ) : ℝ := max (gamma * sigma) minSigma

/-- Step-size after `k` iterations of the `SRS.optimize` loop, starting
from the initial step-size `sigma0`. -/
def srsSigmaSeq (gamma minSigma sigma0 : ℝ) : ℕ → ℝ
  | 0 => sigma0
  | k + 1 => srsSigmaNext gamma minSigma (srsSigmaSeq gamma minSigma sigma0 k)

/-- Claim C3: after every generation's `iterate` the SRS global step-size
follows the recurrence `sigma ← max(gamma·sigma, min_sigma)`; hence for
every generation after the first update the step-size is at least
`min_sigma`, and while the decayed value stays above the floor the
step-size decays geometrically by the factor `gamma`. -/
theorem claim_C3_srs_sigma_floor_decay (gamma minSigma sigma0 : ℝ) (k : ℕ) :
    (1 ≤ k → minSigma ≤ srsSigmaSeq gamma minSigma sigma0 k) ∧
      (minSigma ≤ gamma * srsSigmaSeq gamma minSigma sigma0 k →
        srsSigmaSeq gamma minSigma sigma0 (k + 1) =
          gamma * srsSigmaSeq gamma minSigma sigma0 k) := by
  constructor
  · intro hk
    match k, hk with
    | j + 1, _ => exact le_max_right _ _
  · intro hfloor
    simpa [srsSigmaSeq, srsSigmaNext] using max_eq_left hfloor

/-- Witness for claim C3 at a concrete input (`gamma = 1`, `min_sigma = 1`,
`sigma0 = 1`, generation 1). -/
theorem claim_C3_witness :
    ((1:ℝ) ≤ srsSigmaSeq 1 1 1 1) ∧ srsSigmaSeq 1 1 1 2 = 1 * srsSigmaSeq 1 1 1 1 :=
  ⟨(claim_C3_srs_sigma_floor_decay 1 1 1 1).1 le_rfl,
    (claim_C3_srs_sigma_floor_decay 1 1 1 1).2 (by simp [srsSigmaSeq, srsSigmaNext])⟩

/-- Search state of SRS: current point `x`, best-so-far point and fitness,
and the evaluation counter. -/
structure SRSState (N : ℕ) where
  x : Fin N → ℝ
  bestX : Fin N → ℝ
  bestY : ℝ
  evals : ℕ

/-- Modelled from the spec: `Optimizer._evaluate_fitness` (base class, not
under `src/`) evaluates the fitness function at the given point,
increments the evaluation counter, and updates the best-so-far pair when
the new fitness improves on it (RunState counters are "updated once per
evaluation").  Returns the new state and the fitness value. -/
noncomputable def evaluateFitness {N : ℕ} (f : (Fin N → ℝ) → ℝ) (st : SRSState N)
    (pt : Fin N → ℝ) : SRSState N × ℝ :=
  (if f pt < st.bestY then ⟨st.x, pt, f pt, st.evals + 1⟩
    else ⟨st.x, st.bestX, st.bestY, st.evals + 1⟩, f pt)

/-- Embeds `SRS.iterate` (`rs/srs.py` lines 126-134).  The RNG draws are
passed explicitly: `z` is the standard-normal vector of line 127 and
`prob` the uniform draw of line 129.  The perturbation is
`delta_x = sigma·z`; the single fitness evaluation is at `x + delta_x`;
then `x` moves by `alpha·delta_x` when `prob < beta` and by
`alpha·(best_so_far_x − x)` otherwise. -/
noncomputable def srsIterate {N : ℕ} (f : (Fin N → ℝ) → ℝ) (alpha beta sigma : ℝ)
    (st : SRSState N) (z : Fin N → ℝ) (prob : ℝ) : SRSState N × ℝ :=
  let res := evaluateFitness f st (fun i => st.x i + sigma * z i)
  let st1 := res.1
  let xNew : Fin N → ℝ :=
    if prob < beta then fun i => st.x i + alpha * (sigma * z i)
    else fun i => st.x i + alpha * (st1.bestX i - st.x i)
  (⟨xNew, st1.bestX, st1.bestY, st1.evals⟩, res.2)

lemma evaluateFitness_evals {N : ℕ} (f : (Fin N → ℝ) → ℝ) (st : SRSState N)
    (pt : Fin N → ℝ) : (evaluateFitness f st pt).1.evals = st.evals + 1 := by
  simp only [evaluateFitness]
  split <;> rfl

/-- Claim C5: `SRS.iterate` evaluates exactly one candidate per generation
(the evaluation counter advances by exactly 1), the candidate is
`x + delta_x` with `delta_x = sigma·z` for the standard-normal draw `z`;
when the uniform draw is below `beta` the point moves by
`alpha·delta_x` (exploration), otherwise it moves by
`alpha·(best_so_far_x − x)` toward the best-so-far point (exploitation). -/
theorem claim_C5_srs_iterate_moves {N : ℕ} (f : (Fin N → ℝ) → ℝ)
    (alpha beta sigma : ℝ) (st : SRSState N) (z : Fin N → ℝ) (prob : ℝ) :
    (srsIterate f alpha beta sigma st z prob).1.evals = st.evals + 1 ∧
      (srsIterate f alpha beta sigma st z prob).2 = f (fun i => st.x i + sigma * z i) ∧
      (prob < beta → (srsIterate f alpha beta sigma st z prob).1.x =
        fun i => st.x i + alpha * (sigma * z i)) ∧
      (¬ prob < beta → (srsIterate f alpha beta sigma st z prob).1.x =
        fun i => st.x i + alpha *
          ((evaluateFitness f st (fun j => st.x j + sigma * z j)).1.bestX i - st.x i)) := by
  refine ⟨?_, rfl, ?_, ?_⟩
  · simpa [srsIterate] using evaluateFitness_evals f st (fun i => st.x i + sigma * z i)
  · intro h
    simp [srsIterate, if_pos h]
  · intro h
    simp [srsIterate, if_neg h]

/-- Witness for claim C5 at a concrete input (`N = 1`, zero fitness
function, `alpha = beta = sigma = 1`, uniform draw 0): the exploration
branch is taken and the point moves by `alpha·delta_x`. -/
theorem claim_C5_witness :
    (0:ℝ) < 1 ∧
      (srsIterate (fun _ => (0:ℝ)) 1 1 1 ⟨fun _ => 0, fun _ => 0, 0, 0⟩
          (fun _ => 1) 0).1.x =
        fun i => (⟨fun _ => 0, fun _ => 0, 0, 0⟩ : SRSState 1).x i +
          1 * (1 * (fun _ : Fin 1 => (1:ℝ)) i) :=
  ⟨one_pos,
    (claim_C5_srs_iterate_moves (fun _ => (0:ℝ)) 1 1 1 ⟨fun _ => 0, fun _ => 0, 0, 0⟩
      (fun _ => 1) 0).2.2.1 one_pos⟩

/-- Claim C10: with the default option `beta = 0.0` the exploration branch
of `SRS.iterate` is unreachable: the uniform draw `prob` lies in `[0, 1)`,
so `prob < beta` is false and every accepted move of `x` is
`alpha·(best_so_far_x − x)`, regardless of the evaluated perturbation. -/
theorem claim_C10_beta_zero_always_exploits {N : ℕ} (f : (Fin N → ℝ) → ℝ)
    (alpha sigma : ℝ) (st : SRSState N) (z : Fin N → ℝ) (prob : ℝ)
    (h : 0 ≤ prob) :
    (srsIterate f alpha 0 sigma st z prob).1.x =
      fun i => st.x i + alpha *
        ((evaluateFitness f st (fun j => st.x j + sigma * z j)).1.bestX i - st.x i) := by
  simp [srsIterate, if_neg (not_lt.mpr h)]

/-- Witness for claim C10 at a concrete input (`N = 1`, uniform draw 0). -/
theorem claim_C10_witness :
    (0:ℝ) ≤ 0 ∧
      (srsIterate (fun _ => (0:ℝ)) 1 0 1 ⟨fun _ => 0, fun _ => 0, 0, 0⟩
          (fun _ => 1) 0).1.x =
        fun i => (⟨fun _ => 0, fun _ => 0, 0, 0⟩ : SRSState 1).x i +
          1 * ((evaluateFitness (fun _ => (0:ℝ)) ⟨fun _ => 0, fun _ => 0, 0, 0⟩
            (fun j => (⟨fun _ => 0, fun _ => 0, 0, 0⟩ : SRSState 1).x j +
              1 * (fun _ : Fin 1 => (1:ℝ)) j)).1.bestX i -
                (⟨fun _ => 0, fun _ => 0, 0, 0⟩ : SRSState 1).x i) :=
  ⟨le_refl 0,
    claim_C10_beta_zero_always_exploits (fun _ => (0:ℝ)) 1 1
      ⟨fun _ => 0, fun _ => 0, 0, 0⟩ (fun _ => 1) 0 (le_refl 0)⟩

/-! ### LMMAES: coefficient clamping and distribution update -/

/-- Embeds `LMMAES.initialize` lines 32-35: the evolution-path retention
coefficient `1 − c_s`, replaced by `0.5` when negative. -/
noncomputable def lmmaesS1 (cs : ℝ) : ℝ := if 1 - cs < 0 then 0.5 else 1 - cs

/-- Embeds `LMMAES.initialize` lines 36-38: the evolution-path variance
coefficient `mu_eff·c_s·(2 − c_s)` (before the square root), replaced by
`0.5²` when negative. -/
noncomputable def lmmaesS2sq (muEff cs : ℝ) : ℝ :=
  if muEff * cs * (2 - cs) < 0 then 0.5 ^ 2 else muEff * cs * (2 - cs)

/-- Embeds `LMMAES.initialize` line 40: the per-index decay rates
`c_c[k] = n_individuals / (ndim_problem · 4^k)`. -/
noncomputable def lmmaesCc (lam ndim : ℝ) (k : ℕ) : ℝ := lam / (ndim * 4 ^ k)

/-- Embeds `LMMAES._update_distribution` lines 71-73: the direction-vector
retention coefficient `1 − c_c[k]`, replaced by `0.5` when negative. -/
noncomputable def lmmaesTm1 (cck : ℝ) : ℝ := if 1 - cck < 0 then 0.5 else 1 - cck

/-- Embeds `LMMAES._update_distribution` lines 74-76: the direction-vector
variance coefficient `mu_eff·c_c[k]·(2 − c_c[k])` (before the square
root), replaced by `0.5²` when negative. -/
noncomputable def lmmaesTm2sq (muEff cck : ℝ) : ℝ :=
  if muEff * cck * (2 - cck) < 0 then 0.5 ^ 2 else muEff * cck * (2 - cck)

/-- Claim C6: in LMMAES every retention coefficient that would come out
negative is replaced by the documented fallback: when `1 − c_s < 0` the
evolution-path smoothing coefficient becomes `0.5`; when
`1 − c_c[k] < 0`, with `c_c[k] = n_individuals / (ndim · 4^k)`, the
direction-vector retention coefficient becomes `0.5`; and the
corresponding variance terms, when negative, become `0.5²`. -/
theorem claim_C6_lmmaes_clamps (cs muEff lam ndim : ℝ) (k : ℕ) :
    (1 - cs < 0 → lmmaesS1 cs = 0.5) ∧
      (1 - lmmaesCc lam ndim k < 0 → lmmaesTm1 (lmmaesCc lam ndim k) = 0.5) ∧
      (muEff * cs * (2 - cs) < 0 → lmmaesS2sq muEff cs = 0.5 ^ 2) ∧
      (muEff * lmmaesCc lam ndim k * (2 - lmmaesCc lam ndim k) < 0 →
        lmmaesTm2sq muEff (lmmaesCc lam ndim k) = 0.5 ^ 2) ∧
      lmmaesCc lam ndim k = lam / (ndim * 4 ^ k) :=
  ⟨fun h1 => by simp only [lmmaesS1]; rw [if_pos h1],
    fun h2 => by simp only [lmmaesTm1]; rw [if_pos h2],
    fun h3 => by simp only [lmmaesS2sq]; rw [if_pos h3],
    fun h4 => by simp only [lmmaesTm2sq]; rw [if_pos h4], rfl⟩

/-- Witness for claim C6 at a concrete input: `c_s = 3`, `mu_eff = 1`,
`n_individuals = 3`, `ndim = 1`, `k = 0`, so that `c_c[0] = 3` and all
four clamped quantities are negative before substitution, letting each
conditional of the theorem fire. -/
theorem claim_C6_witness :
    lmmaesS1 3 = 0.5 ∧
      lmmaesTm1 (lmmaesCc 3 1 0) = 0.5 ∧
      lmmaesS2sq 1 3 = 0.5 ^ 2 ∧
      lmmaesTm2sq 1 (lmmaesCc 3 1 0) = 0.5 ^ 2 ∧
      lmmaesCc 3 1 0 = 3 / (1 * 4 ^ 0) :=
  ⟨(claim_C6_lmmaes_clamps 3 1 3 1 0).1 (by norm_num),
    (claim_C6_lmmaes_clamps 3 1 3 1 0).2.1 (by norm_num [lmmaesCc]),
    (claim_C6_lmmaes_clamps 3 1 3 1 0).2.2.1 (by norm_num),
    (claim_C6_lmmaes_clamps 3 1 3 1 0).2.2.2.1 (by norm_num [lmmaesCc]),
    (claim_C6_lmmaes_clamps 3 1 3 1 0).2.2.2.2⟩

/-- Result record of `LMMAES._update_distribution`: the new mean, the new
evolution path `s`, the new low-rank transformation matrix rows `tm`, and
the new global step-size. -/
structure LMMAESUpdate (N M : ℕ) where
  mean : Fin N → ℝ
  s : Fin N → ℝ
  tm : Fin M → Fin N → ℝ
  sigma : ℝ

/-- Embeds `LMMAES._update_distribution` (`es/lmmaes.py` lines 60-80) over
exact reals.  `order` abstracts the ranking `np.argsort(y)` restricted to
the `n_parents` selected parents (line 61 and the loop of lines 63-65);
`w` are the recombination weights `self._w` of the ES base class.
Following the source: the weighted sums `d_w`, `z_w` are formed, the mean
moves by `sigma·d_w`, the evolution path `s` is smoothed with the clamped
coefficients, each of the `M` direction vectors is smoothed with its
clamped per-index coefficients, and finally the step-size is multiplied
by `exp(c_s/2 · (‖s‖²/ndim − 1))` using the freshly updated path `s`. -/
noncomputable def lmmaesUpdate {N M lam mu : ℕ} (cs muEff : ℝ) (w : Fin mu → ℝ)
    (z d : Fin lam → Fin N → ℝ) (order : Fin mu → Fin lam)
    (mean s : Fin N → ℝ) (tm : Fin M → Fin N → ℝ) (sigma : ℝ) :
    LMMAESUpdate N M :=
  let dw : Fin N → ℝ := fun i => ∑ k, w k * d (order k) i
  let zw : Fin N → ℝ := fun i => ∑ k, w k * z (order k) i
  let mean2 : Fin N → ℝ := fun i => mean i + sigma * dw i
  let s2 : Fin N → ℝ := fun i =>
    lmmaesS1 cs * s i + Real.sqrt (lmmaesS2sq muEff cs) * zw i
  let tm2 : Fin M → Fin N → ℝ := fun k i =>
    lmmaesTm1 (lmmaesCc (lam : ℝ) (N : ℝ) (k : ℕ)) * tm k i +
      Real.sqrt (lmmaesTm2sq muEff (lmmaesCc (lam : ℝ) (N : ℝ) (k : ℕ))) * zw i
  let sigma2 : ℝ := sigma * Real.exp (cs / 2 * ((∑ i, s2 i ^ 2) / (N : ℝ) - 1))
  ⟨mean2, s2, tm2, sigma2⟩

/-- Claim C4: each call of `LMMAES._update_distribution` multiplies the
global step-size by exactly `exp(c_s/2 · (‖s‖²/ndim − 1))` where `s` is
the evolution path *after* this generation's exponential-smoothing update
(the path update on line 69 precedes the step-size update on line 79). -/
theorem claim_C4_lmmaes_sigma_update {N M lam mu : ℕ} (cs muEff : ℝ)
    (w : Fin mu → ℝ) (z d : Fin lam → Fin N → ℝ) (order : Fin mu → Fin lam)
    (mean s : Fin N → ℝ) (tm : Fin M → Fin N → ℝ) (sigma : ℝ) :
    (lmmaesUpdate cs muEff w z d order mean s tm sigma).sigma =
      sigma * Real.exp (cs / 2 *
        ((∑ i, (lmmaesUpdate cs muEff w z d order mean s tm sigma).s i ^ 2) /
          (N : ℝ) - 1)) :=
  rfl

/-! ### XNES: utility weights, matrix-exponential transform update -/

/-- Embeds the base utility weights `self._w` set in `XNES.initialize`
(`nes/xnes.py` lines 39-40): `w i = max(0, log(n/2 + 1) − log(n − i))`. -/
noncomputable def xnesW (n : ℕ) (i : Fin n) : ℝ :=
  max 0 (Real.log ((n : ℝ) / 2 + 1) - Real.log ((n : ℝ) - ((i : ℕ) : ℝ)))

/-- Embeds lines 52-56 of `XNES._update_distribution`: the ranked weights
are scattered back by the ranking (`u[order[i]] = w[i]`), then the array
is normalized by its sum and shifted by `1/n_individuals`.  `order`
abstracts `np.argsort(-y)` as a permutation of the population indices. -/
noncomputable def xnesU (n : ℕ) (order : Equiv.Perm (Fin n)) (j : Fin n) : ℝ :=
  xnesW n (order.symm j) / (∑ i, xnesW n (order.symm i)) - 1 / (n : ℝ)

/-- Claim C8: for every evaluated population the utility weight vector `u`
produced by `XNES._update_distribution` — rank-based weights normalized by
their sum and then shifted by `1/n_individuals` — sums exactly to zero. -/
theorem claim_C8_xnes_u_sums_to_zero (n : ℕ) (order : Equiv.Perm (Fin n))
    (h : 0 < n) : ∑ j, xnesU n order j = 0 := by
  have hn1 : 1 ≤ n := h
  have hperm : ∑ i, xnesW n (order.symm i) = ∑ i, xnesW n i :=
    Equiv.sum_comp order.symm (xnesW n)
  have hnonneg : ∀ i : Fin n, 0 ≤ xnesW n i := fun i => le_max_left 0 _
  have hcast : ((n - 1 : ℕ) : ℝ) = (n : ℝ) - 1 := by
    rw [Nat.cast_sub hn1, Nat.cast_one]
  have hlog : 0 < Real.log ((n : ℝ) / 2 + 1) := by
    have hn : (0 : ℝ) < n := by exact_mod_cast h
    exact Real.log_pos (by linarith)
  have hlast : 0 < xnesW n ⟨n - 1, by omega⟩ := by
    have hone : (n : ℝ) - (((⟨n - 1, by omega⟩ : Fin n) : ℕ) : ℝ) = 1 := by
      rw [hcast]; ring
    simp only [xnesW, hone, Real.log_one, sub_zero]
    exact lt_max_iff.mpr (Or.inr hlog)
  have hS : 0 < ∑ i, xnesW n i :=
    Finset.sum_pos' (fun i _ => hnonneg i) ⟨⟨n - 1, by omega⟩, Finset.mem_univ _, hlast⟩
  have hn0 : (n : ℝ) ≠ 0 := Nat.cast_ne_zero.mpr h.ne'
  simp only [xnesU]
  rw [Finset.sum_sub_distrib, ← Finset.sum_div, hperm, div_self (ne_of_gt hS),
    Finset.sum_const, Finset.card_univ, Fintype.card_fin, nsmul_eq_mul, mul_one_div,
    div_self hn0, sub_self]

/-- Witness for claim C8 at a concrete input (population size 1, identity
ranking permutation). -/
theorem claim_C8_witness :
    0 < 1 ∧ ∑ j, xnesU 1 (Equiv.refl (Fin 1)) j = 0 :=
  ⟨Nat.one_pos, claim_C8_xnes_u_sums_to_zero 1 (Equiv.refl (Fin 1)) Nat.one_pos⟩

/-- Search-distribution state of XNES: mean vector, transform matrix `a`,
its maintained inverse `inv_a`, and the accumulated log-determinant. -/
structure XNESState (N : ℕ) where
  mean : Fin N → ℝ
  a : Matrix (Fin N) (Fin N) ℝ
  invA : Matrix (Fin N) (Fin N) ℝ
  logDet : ℝ

/-- Embeds `XNES.initialize` (`nes/xnes.py` lines 35-38): the transform
pair starts as `(I, I)` and the log-determinant accumulator at `0.0`. -/
def xnesInitialize {N : ℕ} (mean0 : Fin N → ℝ) : XNESState N := ⟨mean0, 1, 1, 0⟩

/-- Embeds lines 57-59 of `XNES._update_distribution`: the standardized
population rows `s[k] = inv_a ⬝ (x[k] − mean)`. -/
noncomputable def xnesS {N lam : ℕ} (invA : Matrix (Fin N) (Fin N) ℝ)
    (x : Fin lam → Fin N → ℝ) (mean : Fin N → ℝ) (k : Fin lam) : Fin N → ℝ :=
  invA.mulVec (fun i => x k i - mean i)

/-- Embeds line 61 of `XNES._update_distribution`: the covariance gradient
`g_cv = Σ_k u_k (outer(s_k, s_k) − I)` before trace removal. -/
noncomputable def xnesGcv {N lam : ℕ} (u : Fin lam → ℝ) (s : Fin lam → Fin N → ℝ) :
    Matrix (Fin N) (Fin N) ℝ :=
  ∑ k, u k • (Matrix.vecMulVec (s k) (s k) - 1)

/-- Embeds lines 62-64 of `XNES._update_distribution`: the trace of `g_cv`
is extracted, `g_cv` is trace-removed, and the matrix-exponential argument
is `d_a = ½·(lr_sigma·t/N·I + lr_cv·(g_cv − t/N·I))`. -/
noncomputable def xnesDa {N : ℕ} (lrSigma lrCv t : ℝ) (gcv : Matrix (Fin N) (Fin N) ℝ) :
    Matrix (Fin N) (Fin N) ℝ :=
  (0.5 : ℝ) • ((lrSigma * t / (N : ℝ)) • (1 : Matrix (Fin N) (Fin N) ℝ) +
    lrCv • (gcv - (t / (N : ℝ)) • (1 : Matrix (Fin N) (Fin N) ℝ)))

/-- Matrix-exponential argument of one XNES generation, assembled from the
current state and the population exactly as lines 51-64 compute it. -/
noncomputable def xnesDaOf {N lam : ℕ} (lrSigma lrCv : ℝ) (st : XNESState N)
    (x : Fin lam → Fin N → ℝ) (order : Equiv.Perm (Fin lam)) :
    Matrix (Fin N) (Fin N) ℝ :=
  xnesDa lrSigma lrCv
    (Matrix.trace (xnesGcv (xnesU lam order) (xnesS st.invA x st.mean)))
    (xnesGcv (xnesU lam order) (xnesS st.invA x st.mean))

/-- Embeds `XNES._update_distribution` (`nes/xnes.py` lines 51-69): the
mean moves by `a ⬝ d_c` with `d_c = sᵀu` (lines 60 and 65), the transform
becomes `a · expm(d_a)` (line 66), the inverse becomes `expm(−d_a) · inv_a`
(line 67), and the log-determinant accumulator gains `½·lr_sigma·trace`
(line 68). -/
noncomputable def xnesUpdate {N lam : ℕ} (lrSigma lrCv : ℝ) (st : XNESState N)
    (x : Fin lam → Fin N → ℝ) (order : Equiv.Perm (Fin lam)) : XNESState N :=
  ⟨fun i => st.mean i +
      st.a.mulVec (fun j => ∑ k, xnesS st.invA x st.mean k j * xnesU lam order k) i,
   st.a * NormedSpace.exp ℝ (xnesDaOf lrSigma lrCv st x order),
   NormedSpace.exp ℝ (-xnesDaOf lrSigma lrCv st x order) * st.invA,
   st.logDet + 0.5 * lrSigma *
     Matrix.trace (xnesGcv (xnesU lam order) (xnesS st.invA x st.mean))⟩

/-- One recorded generation of an XNES run: the sampled population and the
ranking permutation produced by its fitness values. -/
structure XNESGen (N lam : ℕ) where
  x : Fin lam → Fin N → ℝ
  order : Equiv.Perm (Fin lam)

/-- Every prefix of an XNES run: `initialize` followed by one
`_update_distribution` per recorded generation. -/
noncomputable def xnesRun {N lam : ℕ} (lrSigma lrCv : ℝ) (mean0 : Fin N → ℝ)
    (gens : List (XNESGen N lam)) : XNESState N :=
  gens.foldl (fun st g => xnesUpdate lrSigma lrCv st g.x g.order)
    (xnesInitialize mean0)

lemma exp_neg_mul_exp_self {N : ℕ} (A : Matrix (Fin N) (Fin N) ℝ) :
    NormedSpace.exp ℝ (-A) * NormedSpace.exp ℝ A = 1 := by
  rw [← Matrix.exp_add_of_commute ℝ (-A) A ((Commute.refl A).neg_left),
    neg_add_cancel]
  exact NormedSpace.exp_zero

lemma exp_mul_exp_neg_self {N : ℕ} (A : Matrix (Fin N) (Fin N) ℝ) :
    NormedSpace.exp ℝ A * NormedSpace.exp ℝ (-A) = 1 := by
  rw [← Matrix.exp_add_of_commute ℝ A (-A) ((Commute.refl A).neg_right),
    add_neg_cancel]
  exact NormedSpace.exp_zero

lemma xnesUpdate_inv_left {N lam : ℕ} (lrSigma lrCv : ℝ) (st : XNESState N)
    (x : Fin lam → Fin N → ℝ) (order : Equiv.Perm (Fin lam))
    (h1 : st.invA * st.a = 1) :
    (xnesUpdate lrSigma lrCv st x order).invA *
      (xnesUpdate lrSigma lrCv st x order).a = 1 := by
  show NormedSpace.exp ℝ (-xnesDaOf lrSigma lrCv st x order) * st.invA *
      (st.a * NormedSpace.exp ℝ (xnesDaOf lrSigma lrCv st x order)) = 1
  rw [mul_assoc, ← mul_assoc st.invA st.a, h1, one_mul]
  exact exp_neg_mul_exp_self _

lemma xnesUpdate_inv_right {N lam : ℕ} (lrSigma lrCv : ℝ) (st : XNESState N)
    (x : Fin lam → Fin N → ℝ) (order : Equiv.Perm (Fin lam))
    (h2 : st.a * st.invA = 1) :
    (xnesUpdate lrSigma lrCv st x order).a *
      (xnesUpdate lrSigma lrCv st x order).invA = 1 := by
  show st.a * NormedSpace.exp ℝ (xnesDaOf lrSigma lrCv st x order) *
      (NormedSpace.exp ℝ (-xnesDaOf lrSigma lrCv st x order) * st.invA) = 1
  rw [mul_assoc, ← mul_assoc (NormedSpace.exp ℝ (xnesDaOf lrSigma lrCv st x order)),
    exp_mul_exp_neg_self, one_mul, h2]

lemma xnesRun_keeps_inverse {N lam : ℕ} (lrSigma lrCv : ℝ) :
    ∀ (gens : List (XNESGen N lam)) (st : XNESState N),
      st.invA * st.a = 1 → st.a * st.invA = 1 →
      (gens.foldl (fun acc g => xnesUpdate lrSigma lrCv acc g.x g.order) st).invA *
          (gens.foldl (fun acc g => xnesUpdate lrSigma lrCv acc g.x g.order) st).a = 1 ∧
        (gens.foldl (fun acc g => xnesUpdate lrSigma lrCv acc g.x g.order) st).a *
          (gens.foldl (fun acc g => xnesUpdate lrSigma lrCv acc g.x g.order) st).invA = 1 := by
  intro gens
  induction gens with
  | nil => intro st h1 h2; exact ⟨h1, h2⟩
  | cons g gs ih =>
      intro st h1 h2
      exact ih (xnesUpdate lrSigma lrCv st g.x g.order)
        (xnesUpdate_inv_left lrSigma lrCv st g.x g.order h1)
        (xnesUpdate_inv_right lrSigma lrCv st g.x g.order h2)

/-- Claim C2: in XNES the maintained matrix `inv_a` is the exact inverse of
the transform `a` at every point of the run: the pair starts as `(I, I)`
in `initialize` and every `_update_distribution`, which multiplies `a` by
`expm(d_a)` on the right and `inv_a` by `expm(−d_a)` on the left,
preserves `inv_a·a = I` (and `a·inv_a = I`), so the transform always
remains invertible. -/
theorem claim_C2_xnes_inverse_invariant {N lam : ℕ} (lrSigma lrCv : ℝ)
    (mean0 : Fin N → ℝ) (gens : List (XNESGen N lam)) :
    (xnesRun lrSigma lrCv mean0 gens).invA * (xnesRun lrSigma lrCv mean0 gens).a = 1 ∧
      (xnesRun lrSigma lrCv mean0 gens).a * (xnesRun lrSigma lrCv mean0 gens).invA = 1 ∧
      IsUnit (xnesRun lrSigma lrCv mean0 gens).a := by
  obtain ⟨h1, h2⟩ := xnesRun_keeps_inverse lrSigma lrCv gens (xnesInitialize mean0)
    (by simp [xnesInitialize]) (by simp [xnesInitialize])
  exact ⟨h1, h2, ⟨⟨_, _, h2, h1⟩, rfl⟩⟩

lemma one_apply_comm {N : ℕ} (i j : Fin N) :
    (1 : Matrix (Fin N) (Fin N) ℝ) j i = (1 : Matrix (Fin N) (Fin N) ℝ) i j := by
  by_cases h : i = j
  · subst h; rfl
  · rw [Matrix.one_apply_ne h, Matrix.one_apply_ne (Ne.symm h)]

lemma xnesGcv_isHermitian {N lam : ℕ} (u : Fin lam → ℝ)
    (s : Fin lam → Fin N → ℝ) : (xnesGcv u s).IsHermitian := by
  show Matrix.conjTranspose (xnesGcv u s) = xnesGcv u s
  ext i j
  rw [Matrix.conjTranspose_apply, star_trivial]
  simp only [xnesGcv, Matrix.sum_apply, Matrix.smul_apply, Matrix.sub_apply,
    Matrix.vecMulVec_apply, smul_eq_mul]
  refine Finset.sum_congr rfl fun k _ => ?_
  rw [mul_comm (s k j) (s k i), one_apply_comm i j]

lemma isHermitian_real_smul {N : ℕ} (r : ℝ) {A : Matrix (Fin N) (Fin N) ℝ}
    (hA : A.IsHermitian) : (r • A).IsHermitian := by
  show Matrix.conjTranspose (r • A) = r • A
  rw [Matrix.conjTranspose_smul, star_trivial, hA]

lemma xnesDa_isHermitian {N lam : ℕ} (lrSigma lrCv t : ℝ) (u : Fin lam → ℝ)
    (s : Fin lam → Fin N → ℝ) :
    (xnesDa lrSigma lrCv t (xnesGcv u s)).IsHermitian := by
  refine isHermitian_real_smul 0.5 ?_
  refine Matrix.IsHermitian.add (isHermitian_real_smul _ Matrix.isHermitian_one) ?_
  refine isHermitian_real_smul lrCv ?_
  exact Matrix.IsHermitian.sub (xnesGcv_isHermitian u s)
    (isHermitian_real_smul _ Matrix.isHermitian_one)

lemma trace_xnesDa {N : ℕ} (lrSigma lrCv t : ℝ) (gcv : Matrix (Fin N) (Fin N) ℝ)
    (ht : gcv.trace = t) :
    (xnesDa lrSigma lrCv t gcv).trace = 0.5 * lrSigma * t := by
  rcases Nat.eq_zero_or_pos N with hN | hN
  · subst hN
    have ht0 : t = 0 := by rw [← ht]; simp [Matrix.trace]
    simp [xnesDa, ht0, Matrix.trace_smul, Matrix.trace_add, Matrix.trace_sub,
      Matrix.trace_one]
  · have hN' : (N : ℝ) ≠ 0 := Nat.cast_ne_zero.mpr hN.ne'
    simp only [xnesDa, Matrix.trace_smul, Matrix.trace_add, Matrix.trace_sub,
      Matrix.trace_one, ht, smul_eq_mul, Fintype.card_fin]
    field_simp
    ring

/-- Determinant of the matrix exponential of a diagonalizable real matrix:
if `A = P · diagonal v · P⁻¹` with `P` invertible then
`det(expm(A)) = exp(trace(A))`. -/
lemma det_exp_of_conj_diagonal {N : ℕ} (P : Matrix (Fin N) (Fin N) ℝ)
    (v : Fin N → ℝ) (hP : IsUnit P) {A : Matrix (Fin N) (Fin N) ℝ}
    (hrep : A = P * Matrix.diagonal v * P⁻¹) :
    (NormedSpace.exp ℝ A).det = Real.exp A.trace := by
  have hdet : IsUnit P.det := (Matrix.isUnit_iff_isUnit_det P).mp hP
  have hPP : P * P⁻¹ = 1 := Matrix.mul_nonsing_inv P hdet
  have hPinvP : P⁻¹ * P = 1 := Matrix.nonsing_inv_mul P hdet
  have hdetmul : P.det * P⁻¹.det = 1 := by
    rw [← Matrix.det_mul, hPP, Matrix.det_one]
  have hprod : (∏ i, (NormedSpace.exp ℝ v) i) = Real.exp (∑ i, v i) := by
    rw [Real.exp_sum]
    refine Finset.prod_congr rfl fun i _ => ?_
    rw [Pi.coe_exp, Real.exp_eq_exp_ℝ]
  subst hrep
  rw [Matrix.exp_conj ℝ P (Matrix.diagonal v) hP, Matrix.exp_diagonal,
    Matrix.det_mul, Matrix.det_mul, Matrix.det_diagonal,
    Matrix.trace_mul_cycle, hPinvP, one_mul, Matrix.trace_diagonal]
  calc P.det * (∏ i, (NormedSpace.exp ℝ v) i) * P⁻¹.det
      = (∏ i, (NormedSpace.exp ℝ v) i) * (P.det * P⁻¹.det) := by ring
    _ = Real.exp (∑ i, v i) := by rw [hdetmul, mul_one, hprod]

/-- Determinant of the matrix exponential of a real symmetric matrix,
through the spectral theorem: `det(expm(A)) = exp(trace(A))`. -/
lemma det_exp_of_isHermitian {N : ℕ} {A : Matrix (Fin N) (Fin N) ℝ}
    (hA : A.IsHermitian) : (NormedSpace.exp ℝ A).det = Real.exp A.trace := by
  have hU1 : (hA.eigenvectorUnitary : Matrix (Fin N) (Fin N) ℝ) *
      star (hA.eigenvectorUnitary : Matrix (Fin N) (Fin N) ℝ) = 1 :=
    Matrix.mem_unitaryGroup_iff.mp hA.eigenvectorUnitary.2
  have hUnit : IsUnit (hA.eigenvectorUnitary : Matrix (Fin N) (Fin N) ℝ) :=
    ⟨⟨_, star (hA.eigenvectorUnitary : Matrix (Fin N) (Fin N) ℝ), hU1,
      Matrix.mem_unitaryGroup_iff'.mp hA.eigenvectorUnitary.2⟩, rfl⟩
  have hInv : (hA.eigenvectorUnitary : Matrix (Fin N) (Fin N) ℝ)⁻¹ =
      star (hA.eigenvectorUnitary : Matrix (Fin N) (Fin N) ℝ) :=
    Matrix.inv_eq_right_inv hU1
  refine det_exp_of_conj_diagonal _ (RCLike.ofReal ∘ hA.eigenvalues) hUnit ?_
  rw [hInv]
  exact hA.spectral_theorem

lemma xnesUpdate_a_det {N lam : ℕ} (lrSigma lrCv : ℝ) (st : XNESState N)
    (x : Fin lam → Fin N → ℝ) (order : Equiv.Perm (Fin lam)) :
    (xnesUpdate lrSigma lrCv st x order).a.det =
      st.a.det * Real.exp (0.5 * lrSigma *
        (xnesGcv (xnesU lam order) (xnesS st.invA x st.mean)).trace) := by
  show (st.a * NormedSpace.exp ℝ (xnesDaOf lrSigma lrCv st x order)).det = _
  simp only [xnesDaOf]
  rw [Matrix.det_mul,
    det_exp_of_isHermitian (xnesDa_isHermitian lrSigma lrCv _ _ _),
    trace_xnesDa lrSigma lrCv _ _ rfl]

lemma xnesRun_logdet_aux {N lam : ℕ} (lrSigma lrCv : ℝ) :
    ∀ (gens : List (XNESGen N lam)) (st : XNESState N),
      0 < st.a.det → st.logDet = Real.log st.a.det →
      0 < (gens.foldl (fun acc g => xnesUpdate lrSigma lrCv acc g.x g.order) st).a.det ∧
        (gens.foldl (fun acc g => xnesUpdate lrSigma lrCv acc g.x g.order) st).logDet =
          Real.log
            (gens.foldl (fun acc g => xnesUpdate lrSigma lrCv acc g.x g.order) st).a.det := by
  intro gens
  induction gens with
  | nil => intro st h1 h2; exact ⟨h1, h2⟩
  | cons g gs ih =>
      intro st h1 h2
      refine ih (xnesUpdate lrSigma lrCv st g.x g.order) ?_ ?_
      · rw [xnesUpdate_a_det]
        exact mul_pos h1 (Real.exp_pos _)
      · rw [xnesUpdate_a_det,
          Real.log_mul (ne_of_gt h1) (Real.exp_ne_zero _), Real.log_exp]
        show st.logDet + 0.5 * lrSigma *
            (xnesGcv (xnesU lam g.order) (xnesS st.invA g.x st.mean)).trace = _
        rw [h2]

/-- Claim C9: in XNES the accumulated scalar `log_det` always equals the
log-determinant of the transform matrix `a`: it starts at `0` when `a` is
the identity, and each `_update_distribution` adds `½·lr_sigma·trace`,
which is exactly the trace of the symmetric matrix-exponential argument
`d_a` (the trace-removed covariance-gradient part contributes zero) and
hence the log-determinant of the factor `expm(d_a)` multiplied onto `a`. -/
theorem claim_C9_xnes_logdet_tracks_det {N lam : ℕ} (lrSigma lrCv : ℝ)
    (mean0 : Fin N → ℝ) (gens : List (XNESGen N lam)) :
    (xnesRun lrSigma lrCv mean0 gens).logDet =
      Real.log (xnesRun lrSigma lrCv mean0 gens).a.det :=
  (xnesRun_logdet_aux lrSigma lrCv gens (xnesInitialize mean0)
    (by simp [xnesInitialize]) (by simp [xnesInitialize])).2

end PyPop
